import Mathlib

/-!
Forbidden domains: `Domain` and `DomainChecker` (src/main.cpp)

A shallow embedding of the two classes of `src/main.cpp` and of the standard
library algorithms they call, followed by the properties proved about them.

Modelling conventions.

* `std::string` is a `List Char`; characters are ordered by their code, as
  `char_traits<char>::lt` orders bytes by their unsigned value.
* `std::string::back()` has the precondition `!empty()`.  The constructor of
  `Domain` calls it on the reversed input without a check, so for the empty
  input the read is outside the string's contents.  `backDefined` records the
  precondition; the value such a read yields is the parameter `junk` of `back`
  and of `Domain.mk`, so every statement about `Domain.mk junk s` says for
  which values of that read it holds.  For a non-empty input `junk` plays no
  role (`mk_junk_irrel`).  `nul`, the zero character, stands for a read that
  yields something other than the dot; the canonical form of the empty name
  is then the single dot.
* `rng::sort` leaves the elements in ascending `operator<` order; `operator<`
  is a strict total order on `value_`, so this arrangement is unique
  (`sort_unique`) and insertion sort computes it.
* `rng::unique` keeps the first element and then every element `x` for which
  `pred(last kept, x)` is false.
* `rng::upper_bound` is the halving loop over `[first, first + len)`.
* `upperBoundLoopCounted` and `IsForbiddenCounted` are the same loop and the
  same member with counters for the evaluations of `operator<` and of
  `IsSubdomain`; their answers are proved equal to the uncounted ones.
* An `istream` is the list of characters not yet extracted together with
  `good()`; `getline` extracts up to and including the next newline, and
  clears `good()` when it reaches the end of the input instead.
-/

namespace ForbiddenDomains

/-! ## `std::string` operations -/

/-- Three-way comparison `basic_string::compare`: the first position where
the strings differ decides; when one is a prefix of the other the shorter
string is smaller. -/
def strCompare : List Char → List Char → Ordering
  | [], [] => Ordering.eq
  | [], _ :: _ => Ordering.lt
  | _ :: _, [] => Ordering.gt
  | a :: as, b :: bs =>
    if a < b then Ordering.lt
    else if b < a then Ordering.gt
    else strCompare as bs

/-- Member `s.starts_with(p)`. -/
def startsWith (s p : List Char) : Bool := p.isPrefixOf s

/-- Precondition of `std::string::back()`: the string is not empty. -/
def backDefined (s : List Char) : Bool := !s.isEmpty

/-- Member `s.back()`: the last character of `s`.  On an empty string the read
is outside the contents of `s`; `junk` is the character it yields then. -/
def back (junk : Char) (s : List Char) : Char := s.getLast?.getD junk

/-- The zero character: a value of the read of `back()` on an empty string
that differs from the dot. -/
def nul : Char := Char.ofNat 0

/-! ## `class Domain` -/

/-- A domain in canonical form: the reversed name, closed by a dot. -/
structure Domain where
  raw ::
  value_ : List Char
deriving DecidableEq

namespace Domain

/-- Constructor `Domain(string value)`: reverse, then append a dot unless the
last character already is one. -/
def mk (junk : Char) (value : List Char) : Domain :=
  let value_ := value.reverse
  if back junk value_ != '.' then ⟨value_ ++ ['.']⟩ else ⟨value_⟩

/-- The precondition of the one partial step of the constructor,
`value_.back()`, at the input `value`. -/
def mkDefined (value : List Char) : Bool := backDefined value.reverse

/-- Comparison `operator==`. -/
def eq (a other : Domain) : Bool := a.value_ == other.value_

/-- Comparison `operator!=`. -/
def ne (a other : Domain) : Bool := a.value_ != other.value_

/-- Comparison `operator<`. -/
def lt (a other : Domain) : Bool := strCompare a.value_ other.value_ == Ordering.lt

/-- Comparison `operator>`. -/
def gt (a other : Domain) : Bool := strCompare a.value_ other.value_ == Ordering.gt

/-- Comparison `operator<=`. -/
def le (a other : Domain) : Bool := strCompare a.value_ other.value_ != Ordering.gt

/-- Comparison `operator>=`. -/
def ge (a other : Domain) : Bool := strCompare a.value_ other.value_ != Ordering.lt

/-- Member `IsSubdomain`: the canonical form starts with that of `other`. -/
def IsSubdomain (a other : Domain) : Bool := startsWith a.value_ other.value_

end Domain

/-! ## Algorithms of `<algorithm>` used by `DomainChecker` -/

/-- One insertion step of the sort: `d` goes in front of the first element
that is greater than it. -/
def insertSorted (d : Domain) : List Domain → List Domain
  | [] => [d]
  | x :: xs => if d.lt x then d :: x :: xs else x :: insertSorted d xs

/-- Algorithm `rng::sort(forbidden_)`: the elements in ascending `operator<`
order. -/
def sort : List Domain → List Domain
  | [] => []
  | x :: xs => insertSorted x (sort xs)

/-- Loop of `rng::unique`: `kept` is the element most recently retained. -/
def uniqueFrom (pred : Domain → Domain → Bool) (kept : Domain) :
    List Domain → List Domain
  | [] => []
  | x :: xs =>
    if pred kept x then uniqueFrom pred kept xs
    else x :: uniqueFrom pred x xs

/-- Algorithm `rng::unique` followed by `erase` of the returned tail: the
first element is retained, and then each element that `pred` does not relate
to the most recently retained one. -/
def unique (pred : Domain → Domain → Bool) : List Domain → List Domain
  | [] => []
  | x :: xs => x :: uniqueFrom pred x xs

/-- Loop of `rng::upper_bound` over `[first, first + len)`: halve the range,
going left when `val < *middle`.  `fuel` bounds the number of iterations; the
range shrinks at every step, so `len` iterations are enough. -/
def upperBoundLoop (xs : List Domain) (val : Domain) :
    Nat → Nat → Nat → Nat
  | 0, first, _ => first
  | fuel + 1, first, len =>
    if len = 0 then first
    else
      let half := len / 2
      match xs[first + half]? with
      | none => first
      | some middle =>
        if val.lt middle then upperBoundLoop xs val fuel first half
        else upperBoundLoop xs val fuel (first + half + 1) (len - half - 1)

/-- Algorithm `rng::upper_bound(forbidden_, domain)`, as an index: the
position of the first element greater than `val`. -/
def upperBound (xs : List Domain) (val : Domain) : Nat :=
  upperBoundLoop xs val xs.length 0 xs.length

/-! ## `class DomainChecker` -/

/-- The checker: the retained forbidden domains. -/
structure DomainChecker where
  raw ::
  forbidden_ : List Domain
deriving DecidableEq

namespace DomainChecker

/-- Constructor `DomainChecker(begin, end)`: copy, sort, and drop every
element that is a subdomain of the most recently retained one. -/
def mk (input : List Domain) : DomainChecker :=
  ⟨unique (fun lhs rhs => rhs.IsSubdomain lhs) (sort input)⟩

/-- Member `IsForbidden`. -/
def IsForbidden (c : DomainChecker) (domain : Domain) : Bool :=
  let nearest := upperBound c.forbidden_ domain
  if nearest = 0 then false
  else
    match c.forbidden_[nearest - 1]? with
    | none => false
    | some candidate => domain.IsSubdomain candidate

end DomainChecker

/-- Abbreviation for a domain built from a string literal. -/
def dom (s : String) : Domain := Domain.mk nul s.toList

/-! ## Notions the specification is worded in -/

/-- The raw string without its leading dot, when it has one. -/
def stripDot : List Char → List Char
  | [] => []
  | c :: cs => if c = '.' then cs else c :: cs

/-- The labels of a raw string, in the order written: the pieces between the
dots, one more than there are dots (the empty string has the one label ""). -/
def labels : List Char → List (List Char)
  | [] => [[]]
  | c :: cs =>
    if c = '.' then [] :: labels cs
    else (c :: (labels cs).headD []) :: (labels cs).tail

/-- Following the specification's words for the collapse: scan left to
right and retain a domain only if it is not a subdomain of any previously
retained domain.  `kept` holds the domains retained so far; the result lists
the domains retained from here on. -/
def retainNotCovered (kept : List Domain) : List Domain → List Domain
  | [] => []
  | x :: xs =>
    if kept.any (fun k => x.IsSubdomain k) then retainNotCovered kept xs
    else x :: retainNotCovered (kept ++ [x]) xs

/-! ## Counting the comparisons of a query -/

/-- The loop of `rng::upper_bound` with a counter: the position found, and
the number of evaluations of `val < *middle` made on the way. -/
def upperBoundLoopCounted (xs : List Domain) (val : Domain) :
    Nat → Nat → Nat → Nat × Nat
  | 0, first, _ => (first, 0)
  | fuel + 1, first, len =>
    if len = 0 then (first, 0)
    else
      let half := len / 2
      match xs[first + half]? with
      | none => (first, 0)
      | some middle =>
        if val.lt middle then
          ((upperBoundLoopCounted xs val fuel first half).1,
            (upperBoundLoopCounted xs val fuel first half).2 + 1)
        else
          ((upperBoundLoopCounted xs val fuel (first + half + 1) (len - half - 1)).1,
            (upperBoundLoopCounted xs val fuel (first + half + 1) (len - half - 1)).2 + 1)

/-- What a query costs: its answer, the number of `operator<` evaluations
and the number of `IsSubdomain` evaluations. -/
structure QueryCost where
  result : Bool
  comparisons : Nat
  subdomainChecks : Nat
deriving DecidableEq

/-- Member `IsForbidden` with counters. -/
def DomainChecker.IsForbiddenCounted (c : DomainChecker) (domain : Domain) : QueryCost :=
  let nearest := upperBoundLoopCounted c.forbidden_ domain c.forbidden_.length 0
    c.forbidden_.length
  if nearest.1 = 0 then ⟨false, nearest.2, 0⟩
  else
    match c.forbidden_[nearest.1 - 1]? with
    | none => ⟨false, nearest.2, 0⟩
    | some candidate => ⟨domain.IsSubdomain candidate, nearest.2, 1⟩

/-! ## `ReadDomains` and the stream it reads -/

/-- An input stream: the characters not yet extracted, and `good()`. -/
structure IStream where
  buf : List Char
  good : Bool
deriving DecidableEq

/-- Extraction loop of `getline`: the characters up to the first newline,
which is extracted and dropped; the third component tells that the end of
the input was reached instead. -/
def takeLine : List Char → List Char × List Char × Bool
  | [] => ([], [], true)
  | c :: cs =>
    if c = '\n' then ([], cs, false)
    else ((c :: (takeLine cs).1), (takeLine cs).2.1, (takeLine cs).2.2)

/-- Function `getline(input, line)`: when the stream is not good the line is
left as it is; otherwise the line is replaced by the characters up to the
next newline, and reaching the end of the input clears `good()`. -/
def getline (input : IStream) (line : List Char) : IStream × List Char :=
  if input.good then
    (⟨(takeLine input.buf).2.1, !(takeLine input.buf).2.2⟩, (takeLine input.buf).1)
  else (input, line)

/-- Loop of `ReadDomains`: `k` iterations are left, `result` is the vector
built so far. -/
def ReadDomainsLoop (junk : Char) : Nat → IStream → List Domain → IStream × List Domain
  | 0, input, result => (input, result)
  | k + 1, input, result =>
    ReadDomainsLoop junk k (getline input []).1
      (result ++ [Domain.mk junk (getline input []).2])

/-- Function `ReadDomains(input, n)`: the stream as it is left, and the
vector returned. -/
def ReadDomains (junk : Char) (input : IStream) (n : Nat) : IStream × List Domain :=
  ReadDomainsLoop junk n input []

/-- A stream content holding the given lines, separated by newlines. -/
def joinLines : List (List Char) → List Char
  | [] => []
  | [l] => l
  | l :: l' :: ls => l ++ '\n' :: joinLines (l' :: ls)

/-! ## The order of strings -/

theorem strCompare_self (a : List Char) : strCompare a a = Ordering.eq := by
  induction a with
  | nil => rfl
  | cons c cs ih => simp [strCompare, ih]

theorem strCompare_eq_iff (a b : List Char) :
    strCompare a b = Ordering.eq ↔ a = b := by
  constructor
  · intro h
    induction a generalizing b with
    | nil => cases b with
      | nil => rfl
      | cons d ds => simp [strCompare] at h
    | cons c cs ih => cases b with
      | nil => simp [strCompare] at h
      | cons d ds =>
        simp only [strCompare] at h
        split_ifs at h with h1 h2
        have hcd : c = d := le_antisymm (not_lt.mp h2) (not_lt.mp h1)
        rw [hcd, ih ds h]
  · rintro rfl
    exact strCompare_self a

theorem strCompare_swap (a b : List Char) :
    strCompare b a = (strCompare a b).swap := by
  induction a generalizing b with
  | nil => cases b <;> rfl
  | cons c cs ih => cases b with
    | nil => rfl
    | cons d ds =>
      simp only [strCompare]
      rcases lt_trichotomy c d with h | h | h
      · simp [h, not_lt_of_lt h, Ordering.swap]
      · subst h; simp [ih]
      · simp [h, not_lt_of_lt h, Ordering.swap]

theorem strCompare_gt_iff (a b : List Char) :
    strCompare a b = Ordering.gt ↔ strCompare b a = Ordering.lt := by
  rw [strCompare_swap a b]
  cases strCompare a b <;> simp [Ordering.swap]

theorem strCompare_lt_trans {a b c : List Char}
    (hab : strCompare a b = Ordering.lt) (hbc : strCompare b c = Ordering.lt) :
    strCompare a c = Ordering.lt := by
  induction a generalizing b c with
  | nil => cases c with
    | nil => cases b <;> simp [strCompare] at hab hbc
    | cons e es => rfl
  | cons x xs ih => cases b with
    | nil => simp [strCompare] at hab
    | cons y ys => cases c with
      | nil => simp [strCompare] at hbc
      | cons z zs =>
        simp only [strCompare] at hab hbc ⊢
        split_ifs at hab with h1 h2
        · split_ifs at hbc with h3 h4
          · simp [lt_trans h1 h3]
          · have hyz : y = z := le_antisymm (not_lt.mp h4) (not_lt.mp h3)
            subst hyz; simp [h1]
        · have hxy : x = y := le_antisymm (not_lt.mp h2) (not_lt.mp h1)
          subst hxy
          split_ifs at hbc with h3 h4
          · simp [h3]
          · simp [h3, h4, ih hab hbc]

/-- A prefix never sorts after the string it starts. -/
theorem strCompare_of_isPrefix {p s : List Char} (h : p <+: s) :
    strCompare s p ≠ Ordering.lt := by
  obtain ⟨t, rfl⟩ := h
  induction p with
  | nil => cases t <;> simp [strCompare]
  | cons c cs ih => simpa [strCompare] using ih

/-- Whatever lies between a prefix `p` of `q` and `q` itself starts with `p`. -/
theorem prefix_of_between {p q x : List Char} (hpq : p <+: q)
    (hpx : strCompare x p ≠ Ordering.lt) (hxq : strCompare q x ≠ Ordering.lt) :
    p <+: x := by
  obtain ⟨t, rfl⟩ := hpq
  induction p generalizing x with
  | nil => exact List.nil_prefix
  | cons c cs ih => cases x with
    | nil => simp [strCompare] at hpx
    | cons d ds =>
      simp only [strCompare, List.cons_append] at hpx hxq
      rcases lt_trichotomy c d with h | h | h
      · simp [h] at hxq
      · subst h
        simp only [lt_irrefl, if_false] at hpx hxq
        exact (List.prefix_cons_inj c).mpr (ih hpx hxq)
      · simp [h] at hpx

/-! ## The order and the subdomain relation of `Domain` -/

namespace Domain

theorem lt_iff (a b : Domain) :
    a.lt b = true ↔ strCompare a.value_ b.value_ = Ordering.lt := by
  unfold lt; cases strCompare a.value_ b.value_ <;> decide

theorem lt_eq_false_iff (a b : Domain) :
    a.lt b = false ↔ strCompare a.value_ b.value_ ≠ Ordering.lt := by
  unfold lt; cases strCompare a.value_ b.value_ <;> decide

theorem le_iff (a b : Domain) :
    a.le b = true ↔ strCompare a.value_ b.value_ ≠ Ordering.gt := by
  unfold le; cases strCompare a.value_ b.value_ <;> decide

theorem le_iff_not_lt (a b : Domain) : a.le b = true ↔ b.lt a = false := by
  rw [le_iff, lt_eq_false_iff, ne_eq, ne_eq, strCompare_gt_iff]

theorem lt_irrefl (a : Domain) : a.lt a = false := by
  rw [lt_eq_false_iff, strCompare_self]; decide

theorem le_refl (a : Domain) : a.le a = true := by
  rw [le_iff, strCompare_self]; decide

theorem lt_trans {a b c : Domain} (hab : a.lt b = true) (hbc : b.lt c = true) :
    a.lt c = true := by
  rw [lt_iff] at hab hbc ⊢
  exact strCompare_lt_trans hab hbc

theorem lt_trichotomy (a b : Domain) : a.lt b = true ∨ a = b ∨ b.lt a = true := by
  rw [lt_iff, lt_iff]
  cases a with
  | raw x => cases b with
    | raw y =>
      simp only [raw.injEq]
      have h1 := strCompare_gt_iff x y
      have h2 := strCompare_eq_iff x y
      cases h : strCompare x y
      · exact Or.inl rfl
      · exact Or.inr (Or.inl (h2.mp h))
      · exact Or.inr (Or.inr (h1.mp h))

theorem lt_asymm {a b : Domain} (hab : a.lt b = true) : b.lt a = false := by
  cases h : b.lt a with
  | false => rfl
  | true => have := lt_trans hab h; simp [lt_irrefl] at this

theorem le_total (a b : Domain) : a.le b = true ∨ b.le a = true := by
  rw [le_iff_not_lt, le_iff_not_lt]
  rcases lt_trichotomy a b with h | h | h
  · exact Or.inl (lt_asymm h)
  · subst h; exact Or.inl (lt_irrefl a)
  · exact Or.inr (lt_asymm h)

theorem le_trans {a b c : Domain} (hab : a.le b = true) (hbc : b.le c = true) :
    a.le c = true := by
  rw [le_iff_not_lt] at hab hbc ⊢
  cases h : c.lt a with
  | false => rfl
  | true =>
    rcases lt_trichotomy a b with h1 | h1 | h1
    · have := lt_trans h h1; simp [hbc] at this
    · subst h1; simp [hbc] at h
    · simp [hab] at h1

theorem le_antisymm {a b : Domain} (hab : a.le b = true) (hba : b.le a = true) :
    a = b := by
  rw [le_iff_not_lt] at hab hba
  rcases lt_trichotomy a b with h | h | h
  · simp [hba] at h
  · exact h
  · simp [hab] at h

theorem lt_of_le_of_ne {a b : Domain} (hab : a.le b = true) (hne : a ≠ b) :
    a.lt b = true := by
  rw [le_iff_not_lt] at hab
  rcases lt_trichotomy a b with h | h | h
  · exact h
  · exact absurd h hne
  · simp [hab] at h

theorem lt_of_lt_of_le {a b c : Domain} (hab : a.lt b = true) (hbc : b.le c = true) :
    a.lt c = true := by
  by_cases h : b = c
  · subst h; exact hab
  · exact lt_trans hab (lt_of_le_of_ne hbc h)

theorem le_of_lt {a b : Domain} (hab : a.lt b = true) : a.le b = true := by
  rw [le_iff_not_lt]; exact lt_asymm hab

theorem isSubdomain_iff (a b : Domain) :
    a.IsSubdomain b = true ↔ b.value_ <+: a.value_ := by
  simp [IsSubdomain, startsWith]

theorem isSubdomain_refl (a : Domain) : a.IsSubdomain a = true := by
  rw [isSubdomain_iff]

theorem isSubdomain_trans {a b c : Domain} (hab : a.IsSubdomain b = true)
    (hbc : b.IsSubdomain c = true) : a.IsSubdomain c = true := by
  rw [isSubdomain_iff] at hab hbc ⊢
  exact hbc.trans hab

/-- An ancestor never sorts after its descendant. -/
theorem le_of_isSubdomain {a b : Domain} (h : a.IsSubdomain b = true) :
    b.le a = true := by
  rw [isSubdomain_iff] at h
  rw [le_iff_not_lt]
  rw [lt_eq_false_iff]
  exact strCompare_of_isPrefix h

/-- A domain between an ancestor `p` of `q` and `q` is a descendant of `p`. -/
theorem isSubdomain_of_between {p q x : Domain} (hqp : q.IsSubdomain p = true)
    (hpx : p.le x = true) (hxq : x.le q = true) : x.IsSubdomain p = true := by
  rw [isSubdomain_iff] at hqp ⊢
  rw [le_iff_not_lt, lt_eq_false_iff] at hpx hxq
  exact prefix_of_between hqp hpx hxq

end Domain

/-! ## `rng::sort` -/

theorem insertSorted_perm (d : Domain) (l : List Domain) :
    (insertSorted d l).Perm (d :: l) := by
  induction l with
  | nil => exact List.Perm.refl _
  | cons x xs ih =>
    simp only [insertSorted]
    split_ifs
    · exact List.Perm.refl _
    · exact (List.Perm.cons x ih).trans (List.Perm.swap d x xs)

theorem sort_perm (l : List Domain) : (sort l).Perm l := by
  induction l with
  | nil => exact List.Perm.refl _
  | cons x xs ih => exact (insertSorted_perm x (sort xs)).trans (List.Perm.cons x ih)

theorem mem_sort {d : Domain} {l : List Domain} : d ∈ sort l ↔ d ∈ l :=
  (sort_perm l).mem_iff

theorem insertSorted_sorted (d : Domain) {l : List Domain}
    (h : l.Pairwise (fun a b => a.le b = true)) :
    (insertSorted d l).Pairwise (fun a b => a.le b = true) := by
  induction l with
  | nil => simp [insertSorted]
  | cons x xs ih =>
    simp only [insertSorted]
    rw [List.pairwise_cons] at h
    split_ifs with hdx
    · refine List.Pairwise.cons ?_ (List.Pairwise.cons h.1 h.2)
      intro y hy
      rcases List.mem_cons.mp hy with rfl | hy
      · exact Domain.le_of_lt hdx
      · exact Domain.le_trans (Domain.le_of_lt hdx) (h.1 y hy)
    · refine List.Pairwise.cons ?_ (ih h.2)
      intro y hy
      rcases List.mem_cons.mp ((insertSorted_perm d xs).mem_iff.mp hy) with rfl | hy
      · rw [Domain.le_iff_not_lt]; simpa using hdx
      · exact h.1 y hy

theorem sort_sorted (l : List Domain) :
    (sort l).Pairwise (fun a b => a.le b = true) := by
  induction l with
  | nil => exact List.Pairwise.nil
  | cons x xs ih => exact insertSorted_sorted x ih

/-- The ascending arrangement of a list is unique: whatever `rng::sort` does
internally, its result is `sort l`. -/
theorem sort_unique {l l' : List Domain} (hp : l'.Perm l)
    (hs : l'.Pairwise (fun a b => a.le b = true)) : l' = sort l := by
  haveI : IsAntisymm Domain (fun a b => a.le b = true) :=
    ⟨fun _ _ hab hba => Domain.le_antisymm hab hba⟩
  exact List.eq_of_perm_of_sorted (hp.trans (sort_perm l).symm) hs (sort_sorted l)

/-! ## `rng::unique` with the subdomain predicate -/

theorem uniqueFrom_sublist (pred : Domain → Domain → Bool) (kept : Domain)
    (xs : List Domain) : (uniqueFrom pred kept xs).Sublist xs := by
  induction xs generalizing kept with
  | nil => exact List.Sublist.slnil
  | cons x xs ih =>
    simp only [uniqueFrom]
    split_ifs
    · exact List.Sublist.cons x (ih kept)
    · exact List.Sublist.cons₂ x (ih x)

theorem unique_sublist (pred : Domain → Domain → Bool) (xs : List Domain) :
    (unique pred xs).Sublist xs := by
  cases xs with
  | nil => exact List.Sublist.slnil
  | cons x xs => exact List.Sublist.cons₂ x (uniqueFrom_sublist pred x xs)

/-- Neighbours in the result of the loop are not related by the predicate. -/
theorem uniqueFrom_chain (kept : Domain) (xs : List Domain) :
    List.Chain (fun a b => b.IsSubdomain a = false) kept
      (uniqueFrom (fun lhs rhs => rhs.IsSubdomain lhs) kept xs) := by
  induction xs generalizing kept with
  | nil => exact List.Chain.nil
  | cons x xs ih =>
    simp only [uniqueFrom]
    split_ifs with h
    · exact ih kept
    · exact List.Chain.cons (by simpa using h) (ih x)

theorem unique_chain (xs : List Domain) :
    List.Chain' (fun a b => b.IsSubdomain a = false)
      (unique (fun lhs rhs => rhs.IsSubdomain lhs) xs) := by
  cases xs with
  | nil => exact List.chain'_nil
  | cons x xs => exact uniqueFrom_chain x xs

/-- Every element the loop passes is a subdomain of a retained element. -/
theorem uniqueFrom_cover (kept : Domain) (xs : List Domain) :
    ∀ x ∈ xs, ∃ r ∈ kept :: uniqueFrom (fun lhs rhs => rhs.IsSubdomain lhs) kept xs,
      x.IsSubdomain r = true := by
  induction xs generalizing kept with
  | nil => intro x hx; cases hx
  | cons y ys ih =>
    intro x hx
    simp only [uniqueFrom]
    split_ifs with h
    · rcases List.mem_cons.mp hx with rfl | hx
      · exact ⟨kept, List.mem_cons_self _ _, h⟩
      · exact ih kept x hx
    · rcases List.mem_cons.mp hx with rfl | hx
      · exact ⟨x, List.mem_cons_of_mem _ (List.mem_cons_self _ _), Domain.isSubdomain_refl x⟩
      · obtain ⟨r, hr, hxr⟩ := ih y x hx
        exact ⟨r, List.mem_cons_of_mem _ hr, hxr⟩

theorem unique_cover (xs : List Domain) :
    ∀ x ∈ xs, ∃ r ∈ unique (fun lhs rhs => rhs.IsSubdomain lhs) xs,
      x.IsSubdomain r = true := by
  cases xs with
  | nil => intro x hx; cases hx
  | cons y ys =>
    intro x hx
    rcases List.mem_cons.mp hx with rfl | hx
    · exact ⟨x, List.mem_cons_self _ _, Domain.isSubdomain_refl x⟩
    · exact uniqueFrom_cover y ys x hx

/-- In an ascending list whose neighbours are unrelated, all pairs are
unrelated and strictly ascending. -/
theorem antichain_of_sorted_chain {l : List Domain}
    (hs : l.Pairwise (fun a b => a.le b = true))
    (hc : l.Chain' (fun a b => b.IsSubdomain a = false)) :
    l.Pairwise (fun a b =>
      a.lt b = true ∧ b.IsSubdomain a = false ∧ a.IsSubdomain b = false) := by
  induction l with
  | nil => exact List.Pairwise.nil
  | cons a l ih =>
    rw [List.pairwise_cons] at hs
    refine List.Pairwise.cons ?_ (ih hs.2 hc.tail)
    intro c hc'
    have hsub : c.IsSubdomain a = false := by
      cases l with
      | nil => cases hc'
      | cons b l =>
        have hab : b.IsSubdomain a = false := (List.chain'_cons.mp hc).1
        cases h : c.IsSubdomain a with
        | false => rfl
        | true =>
          have hbc : b.le c = true := by
            rcases List.mem_cons.mp hc' with rfl | hm
            · exact Domain.le_refl _
            · exact (List.pairwise_cons.mp hs.2).1 c hm
          have := Domain.isSubdomain_of_between h (hs.1 b (List.mem_cons_self _ _)) hbc
          simp [hab] at this
    have hne : a ≠ c := by
      rintro rfl
      simp [Domain.isSubdomain_refl] at hsub
    refine ⟨Domain.lt_of_le_of_ne (hs.1 c hc') hne, hsub, ?_⟩
    cases h : a.IsSubdomain c with
    | false => rfl
    | true =>
      exact absurd (Domain.le_antisymm (hs.1 c hc') (Domain.le_of_isSubdomain h)) hne

/-! ## The retained sequence of a constructed checker -/

theorem retained_sublist (input : List Domain) :
    (DomainChecker.mk input).forbidden_.Sublist (sort input) :=
  unique_sublist _ _

theorem retained_mem_input {input : List Domain} {d : Domain}
    (h : d ∈ (DomainChecker.mk input).forbidden_) : d ∈ input :=
  mem_sort.mp ((retained_sublist input).subset h)

theorem retained_sorted (input : List Domain) :
    (DomainChecker.mk input).forbidden_.Pairwise (fun a b => a.le b = true) :=
  (sort_sorted input).sublist (retained_sublist input)

theorem retained_pairwise (input : List Domain) :
    (DomainChecker.mk input).forbidden_.Pairwise (fun a b =>
      a.lt b = true ∧ b.IsSubdomain a = false ∧ a.IsSubdomain b = false) :=
  antichain_of_sorted_chain (retained_sorted input) (unique_chain (sort input))

theorem retained_cover {input : List Domain} {f : Domain} (h : f ∈ input) :
    ∃ r ∈ (DomainChecker.mk input).forbidden_, f.IsSubdomain r = true :=
  unique_cover (sort input) f (mem_sort.mpr h)

/-! ## `rng::upper_bound` -/

theorem sorted_getElem? {l : List Domain} (hs : l.Pairwise (fun a b => a.le b = true))
    {i j : Nat} {a b : Domain} (hi : l[i]? = some a) (hj : l[j]? = some b)
    (hij : i ≤ j) : a.le b = true := by
  obtain ⟨hi', rfl⟩ := List.getElem?_eq_some.mp hi
  obtain ⟨hj', rfl⟩ := List.getElem?_eq_some.mp hj
  rcases Nat.lt_or_eq_of_le hij with h | h
  · exact List.pairwise_iff_getElem.mp hs i j hi' hj' h
  · subst h; exact Domain.le_refl _

/-- The halving loop on an ascending list: with enough fuel it stops at the
boundary between the elements that are not greater than `val` and those
that are. -/
theorem upperBoundLoop_spec {xs : List Domain} (val : Domain)
    (hs : xs.Pairwise (fun a b => a.le b = true)) :
    ∀ (fuel first len : Nat), len ≤ fuel → first + len ≤ xs.length →
      (∀ i e, xs[i]? = some e → i < first → val.lt e = false) →
      (∀ i e, xs[i]? = some e → first + len ≤ i → val.lt e = true) →
      upperBoundLoop xs val fuel first len ≤ xs.length ∧
      ∀ i e, xs[i]? = some e →
        (i < upperBoundLoop xs val fuel first len ↔ val.lt e = false) := by
  intro fuel
  induction fuel with
  | zero =>
    intro first len hlen hbound hlo hhi
    have hl0 : len = 0 := Nat.le_zero.mp hlen
    subst hl0
    refine ⟨by simpa [upperBoundLoop] using hbound, ?_⟩
    intro i e hie
    simp only [upperBoundLoop]
    constructor
    · exact hlo i e hie
    · intro h
      by_contra hcon
      have := hhi i e hie (by omega)
      simp [h] at this
  | succ fuel ih =>
    intro first len hlen hbound hlo hhi
    simp only [upperBoundLoop]
    split_ifs with hl0
    · subst hl0
      refine ⟨by omega, ?_⟩
      intro i e hie
      constructor
      · exact hlo i e hie
      · intro h
        by_contra hcon
        have := hhi i e hie (by omega)
        simp [h] at this
    · have hhalf : len / 2 < len := Nat.div_lt_self (Nat.pos_of_ne_zero hl0) (by decide)
      have hin : first + len / 2 < xs.length := by omega
      have hmid : xs[first + len / 2]? = some xs[first + len / 2] :=
        List.getElem?_eq_getElem hin
      rw [hmid]
      simp only
      split_ifs with hlt
      · refine ih first (len / 2) (by omega) (by omega) hlo ?_
        intro i e hie hi
        exact Domain.lt_of_lt_of_le hlt (sorted_getElem? hs hmid hie hi)
      · refine ih (first + len / 2 + 1) (len - len / 2 - 1) (by omega) (by omega) ?_ ?_
        · intro i e hie hi
          have hle := sorted_getElem? hs hie hmid (by omega)
          cases h : val.lt e with
          | false => rfl
          | true => exact absurd (Domain.lt_of_lt_of_le h hle) hlt
        · intro i e hie hi
          exact hhi i e hie (by omega)

/-- On an ascending list `upperBound` is a position of the list, the elements
in front of it are not greater than `val`, and the others are. -/
theorem upperBound_spec {xs : List Domain} (val : Domain)
    (hs : xs.Pairwise (fun a b => a.le b = true)) :
    upperBound xs val ≤ xs.length ∧
    ∀ i e, xs[i]? = some e → (i < upperBound xs val ↔ val.lt e = false) := by
  refine upperBoundLoop_spec val hs xs.length 0 xs.length (Nat.le_refl _) (by omega) ?_ ?_
  · intro i e _ hi; omega
  · intro i e hie hi
    have := (List.getElem?_eq_some.mp hie).1
    omega

/-! ## `IsForbidden` on a constructed checker -/

/-- On an ascending antichain the query answers whether some element is an
ancestor-or-self of the queried domain, and the element read in front of the
upper bound is always inside the sequence. -/
theorem isForbidden_raw_iff {R : List Domain}
    (hs : R.Pairwise (fun a b => a.le b = true))
    (hp : R.Pairwise (fun a b =>
      a.lt b = true ∧ b.IsSubdomain a = false ∧ a.IsSubdomain b = false))
    (q : Domain) :
    (DomainChecker.raw R).IsForbidden q = true ↔
      ∃ r ∈ R, q.IsSubdomain r = true := by
  obtain ⟨hle, hub⟩ := upperBound_spec q hs
  simp only [DomainChecker.IsForbidden]
  split_ifs with h0
  · constructor
    · intro h; cases h
    · rintro ⟨r, hr, hqr⟩
      obtain ⟨i, hi⟩ := List.mem_iff_getElem?.mp hr
      have := (hub i r hi).mpr ((Domain.le_iff_not_lt r q).mp (Domain.le_of_isSubdomain hqr))
      omega
  · have hlt : upperBound R q - 1 < R.length := by omega
    have hc : R[upperBound R q - 1]? = some R[upperBound R q - 1] :=
      List.getElem?_eq_getElem hlt
    rw [hc]
    simp only
    constructor
    · intro h
      exact ⟨_, List.getElem_mem hlt, h⟩
    · rintro ⟨r, hr, hqr⟩
      obtain ⟨i, hi⟩ := List.mem_iff_getElem?.mp hr
      have hip := (hub i r hi).mpr
        ((Domain.le_iff_not_lt r q).mp (Domain.le_of_isSubdomain hqr))
      have hcq : R[upperBound R q - 1].le q = true :=
        (Domain.le_iff_not_lt _ _).mpr ((hub _ _ hc).mp (by omega))
      have hrc : r.le R[upperBound R q - 1] = true :=
        sorted_getElem? hs hi hc (by omega)
      have hsub := Domain.isSubdomain_of_between hqr hrc hcq
      rcases Nat.lt_or_eq_of_le (Nat.le_sub_one_of_lt hip) with hlt' | heq
      · obtain ⟨hi', rfl⟩ := List.getElem?_eq_some.mp hi
        have := (List.pairwise_iff_getElem.mp hp i _ hi' hlt hlt').2.1
        simp [hsub] at this
      · subst heq
        rw [hc] at hi
        cases hi
        exact hqr

/-- The query answers whether some retained domain is an ancestor-or-self. -/
theorem isForbidden_iff_retained (input : List Domain) (q : Domain) :
    (DomainChecker.mk input).IsForbidden q = true ↔
      ∃ r ∈ (DomainChecker.mk input).forbidden_, q.IsSubdomain r = true :=
  isForbidden_raw_iff (retained_sorted input) (retained_pairwise input) q

/-- The query answers whether some input domain is an ancestor-or-self. -/
theorem isForbidden_iff_input (input : List Domain) (q : Domain) :
    (DomainChecker.mk input).IsForbidden q = true ↔
      ∃ f ∈ input, q.IsSubdomain f = true := by
  rw [isForbidden_iff_retained]
  constructor
  · rintro ⟨r, hr, hqr⟩
    exact ⟨r, retained_mem_input hr, hqr⟩
  · rintro ⟨f, hf, hqf⟩
    obtain ⟨r, hr, hfr⟩ := retained_cover hf
    exact ⟨r, hr, Domain.isSubdomain_trans hqf hfr⟩

/-! ## The canonical form built by the constructor -/

theorem back_reverse_cons (junk c : Char) (cs : List Char) :
    back junk (c :: cs).reverse = c := by
  simp [back]

theorem mk_nil_value (junk : Char) :
    (Domain.mk junk []).value_ = if junk = '.' then [] else ['.'] := by
  by_cases h : junk = '.' <;> simp [Domain.mk, back, h]

/-- The read of `back()` matters for the empty input only. -/
theorem mk_junk_irrel (junk : Char) {s : List Char} (h : s ≠ []) :
    Domain.mk junk s = Domain.mk nul s := by
  cases s with
  | nil => exact absurd rfl h
  | cons c cs => simp only [Domain.mk, back_reverse_cons]

/-- The canonical form is the reversed name without its leading dot, closed
by a dot. -/
theorem mk_value (junk : Char) (s : List Char) (h : s = [] → junk ≠ '.') :
    (Domain.mk junk s).value_ = (stripDot s).reverse ++ ['.'] := by
  cases s with
  | nil => simp [mk_nil_value, h rfl, stripDot]
  | cons c cs =>
    simp only [Domain.mk, back_reverse_cons, stripDot]
    by_cases hc : c = '.'
    · subst hc; simp
    · simp [hc]

theorem stripDot_eq_self {y : List Char} (hy : y.head? ≠ some '.') : stripDot y = y := by
  cases y with
  | nil => rfl
  | cons c cs =>
    have : c ≠ '.' := by simpa using hy
    simp [stripDot, this]

theorem dot_cons_suffix_strip (x y : List Char) (hy : y.head? ≠ some '.') :
    ('.' :: y) <:+ ('.' :: stripDot x) ↔ x = y ∨ ('.' :: y) <:+ x := by
  cases x with
  | nil =>
    simp only [stripDot, List.suffix_cons_iff, List.cons.injEq, true_and, List.suffix_nil,
      List.cons_ne_nil, or_false]
    exact eq_comm
  | cons c cs =>
    by_cases hc : c = '.'
    · subst hc
      have hne : ¬ ('.' :: cs = y) := by
        rintro rfl; simp at hy
      simp [stripDot, hne]
    · simp only [stripDot, hc, if_false]
      rw [List.suffix_cons_iff]
      constructor
      · rintro (h | h)
        · exact Or.inl (List.cons.inj h).2.symm
        · exact Or.inr h
      · rintro (h | h)
        · exact Or.inl (by rw [h])
        · exact Or.inr h

/-- Subdomain test on constructed domains, in terms of the raw strings. -/
theorem isSubdomain_mk_iff (junk : Char) (x y : List Char)
    (hy : y.head? ≠ some '.') (hj : y = [] → junk ≠ '.') :
    (Domain.mk junk x).IsSubdomain (Domain.mk junk y) = true ↔
      x = y ∨ ('.' :: y) <:+ x := by
  rw [Domain.isSubdomain_iff, mk_value junk y hj, stripDot_eq_self hy]
  by_cases hx : x = [] ∧ junk = '.'
  · obtain ⟨rfl, rfl⟩ := hx
    have hy0 : y ≠ [] := fun h => hj h rfl
    simp [mk_nil_value, hy0, Ne.symm hy0]
  · rw [mk_value junk x (fun h hj' => hx ⟨h, hj'⟩), ← dot_cons_suffix_strip x y hy,
      ← List.reverse_suffix]
    simp

/-! ## Labels -/

theorem labels_ne_nil (s : List Char) : labels s ≠ [] := by
  cases s with
  | nil => simp [labels]
  | cons c cs =>
    simp only [labels]
    split_ifs <;> simp

theorem labels_cons_dot (cs : List Char) : labels ('.' :: cs) = [] :: labels cs := by
  simp [labels]

theorem labels_cons_of_ne {c : Char} (hc : c ≠ '.') (cs : List Char) :
    labels (c :: cs) = (c :: (labels cs).headD []) :: (labels cs).tail := by
  simp [labels, hc]

theorem labels_length_cons_of_ne {c : Char} (hc : c ≠ '.') (cs : List Char) :
    (labels (c :: cs)).length = (labels cs).length := by
  rw [labels_cons_of_ne hc]
  cases h : labels cs with
  | nil => exact absurd h (labels_ne_nil cs)
  | cons l ls => simp

theorem labels_injective {a b : List Char} (h : labels a = labels b) : a = b := by
  induction a generalizing b with
  | nil =>
    cases b with
    | nil => rfl
    | cons d ds =>
      by_cases hd : d = '.'
      · subst hd
        rw [labels_cons_dot] at h
        simp only [labels, List.cons.injEq, true_and] at h
        exact absurd h.symm (labels_ne_nil ds)
      · rw [labels_cons_of_ne hd] at h
        simp [labels] at h
  | cons c cs ih =>
    by_cases hc : c = '.'
    · subst hc
      rw [labels_cons_dot] at h
      cases b with
      | nil =>
        simp only [labels, List.cons.injEq, true_and] at h
        exact absurd h (labels_ne_nil cs)
      | cons d ds =>
        by_cases hd : d = '.'
        · subst hd
          rw [labels_cons_dot] at h
          rw [ih (List.cons.inj h).2]
        · rw [labels_cons_of_ne hd] at h
          simp at h
    · rw [labels_cons_of_ne hc] at h
      cases b with
      | nil => simp [labels] at h
      | cons d ds =>
        by_cases hd : d = '.'
        · subst hd
          rw [labels_cons_dot] at h
          simp at h
        · rw [labels_cons_of_ne hd] at h
          have h1 := (List.cons.inj h).1
          have h2 := (List.cons.inj h).2
          have hcd := (List.cons.inj h1).1
          have hhd := (List.cons.inj h1).2
          have hlab : labels cs = labels ds := by
            cases hcs : labels cs with
            | nil => exact absurd hcs (labels_ne_nil cs)
            | cons l ls =>
              cases hds : labels ds with
              | nil => exact absurd hds (labels_ne_nil ds)
              | cons m ms =>
                rw [hcs, hds] at hhd h2
                simp only [List.headD_cons, List.tail_cons] at hhd h2
                rw [hhd, h2]
          rw [hcd, ih hlab]

/-- Splitting at every dot: the labels of `p.y` are those of `p` followed by
those of `y`. -/
theorem labels_append_dot (p y : List Char) :
    labels (p ++ '.' :: y) = labels p ++ labels y := by
  induction p with
  | nil => simp [labels]
  | cons c cs ih =>
    by_cases hc : c = '.'
    · subst hc
      simp only [List.cons_append, labels_cons_dot, ih]
    · simp only [List.cons_append]
      rw [labels_cons_of_ne hc, labels_cons_of_ne hc, ih]
      cases hcs : labels cs with
      | nil => exact absurd hcs (labels_ne_nil cs)
      | cons l ls => simp

/-- The labels of `y` close the labels of `x` exactly when `x` is `y` or
ends with a dot followed by `y`. -/
theorem labels_suffix_iff (x y : List Char) :
    labels y <:+ labels x ↔ x = y ∨ ('.' :: y) <:+ x := by
  constructor
  · intro h
    induction x with
    | nil =>
      left
      apply labels_injective
      have hlen := h.length_le
      have hpos : 0 < (labels y).length := List.length_pos.mpr (labels_ne_nil y)
      exact (h.eq_of_length (by simp [labels] at hlen ⊢; omega)).symm
    | cons c cs ih =>
      by_cases hc : c = '.'
      · subst hc
        rw [labels_cons_dot, List.suffix_cons_iff] at h
        rcases h with h | h
        · left; rw [← labels_cons_dot] at h; exact (labels_injective h).symm
        · right
          rcases ih h with rfl | h'
          · exact List.suffix_refl _
          · exact h'.trans (List.suffix_cons _ _)
      · by_cases heq : labels y = labels (c :: cs)
        · left; exact (labels_injective heq).symm
        · right
          have hlt : (labels y).length < (labels (c :: cs)).length := by
            rcases Nat.lt_or_eq_of_le h.length_le with hl | hl
            · exact hl
            · exact absurd (h.eq_of_length hl) heq
          rw [labels_length_cons_of_ne hc] at hlt
          rw [labels_cons_of_ne hc, List.suffix_cons_iff] at h
          rcases h with h | h
          · rw [← labels_cons_of_ne hc] at h; exact absurd h heq
          · have hcs : labels y <:+ labels cs := by
              cases hl : labels cs with
              | nil => exact absurd hl (labels_ne_nil cs)
              | cons l ls =>
                rw [hl] at h
                exact h.trans (List.suffix_cons _ _)
            rcases ih hcs with rfl | h'
            · omega
            · exact h'.trans (List.suffix_cons _ _)
  · rintro (rfl | ⟨p, rfl⟩)
    · exact List.suffix_refl _
    · rw [labels_append_dot]
      exact List.suffix_append _ _

/-! ## Which input domains are retained -/

theorem Domain.isSubdomain_antisymm {a b : Domain} (hab : a.IsSubdomain b = true)
    (hba : b.IsSubdomain a = true) : a = b :=
  Domain.le_antisymm (Domain.le_of_isSubdomain hba) (Domain.le_of_isSubdomain hab)

theorem retained_antichain (input : List Domain) :
    ∀ a ∈ (DomainChecker.mk input).forbidden_, ∀ b ∈ (DomainChecker.mk input).forbidden_,
      a ≠ b → a.IsSubdomain b = false := by
  have hp : (DomainChecker.mk input).forbidden_.Pairwise
      (fun a b => a.IsSubdomain b = false ∧ b.IsSubdomain a = false) :=
    (retained_pairwise input).imp (fun h => ⟨h.2.2, h.2.1⟩)
  intro a ha b hb hab
  exact (List.Pairwise.forall (fun _ _ h => ⟨h.2, h.1⟩) hp ha hb hab).1

theorem retained_strict (input : List Domain) :
    (DomainChecker.mk input).forbidden_.Pairwise (fun a b => a.lt b = true) :=
  (retained_pairwise input).imp (fun h => h.1)

theorem retained_nodup (input : List Domain) :
    (DomainChecker.mk input).forbidden_.Nodup := by
  refine (retained_strict input).imp ?_
  rintro a b h rfl
  simp [Domain.lt_irrefl] at h

/-- The retained domains are the input domains without a proper ancestor in
the input. -/
theorem retained_mem_iff (input : List Domain) (d : Domain) :
    d ∈ (DomainChecker.mk input).forbidden_ ↔
      d ∈ input ∧ ∀ e ∈ input, d.IsSubdomain e = true → e = d := by
  constructor
  · intro hd
    refine ⟨retained_mem_input hd, ?_⟩
    intro e he hde
    obtain ⟨r, hr, her⟩ := retained_cover he
    have hdr := Domain.isSubdomain_trans hde her
    have hrd : d = r := by
      by_contra hne
      have := retained_antichain input d hd r hr hne
      simp [hdr] at this
    subst hrd
    exact Domain.isSubdomain_antisymm her hde
  · rintro ⟨hd, hmin⟩
    obtain ⟨r, hr, hdr⟩ := retained_cover hd
    have := hmin r (retained_mem_input hr) hdr
    subst this
    exact hr

/-- Inputs with the same elements give the same retained sequence. -/
theorem retained_eq_of_same_members {l₁ l₂ : List Domain}
    (h : ∀ d, d ∈ l₁ ↔ d ∈ l₂) :
    (DomainChecker.mk l₁).forbidden_ = (DomainChecker.mk l₂).forbidden_ := by
  haveI : IsAntisymm Domain (fun a b => a.le b = true) :=
    ⟨fun _ _ hab hba => Domain.le_antisymm hab hba⟩
  refine List.eq_of_perm_of_sorted ?_ (retained_sorted l₁) (retained_sorted l₂)
  refine (List.perm_ext_iff_of_nodup (retained_nodup l₁) (retained_nodup l₂)).mpr ?_
  intro d
  rw [retained_mem_iff, retained_mem_iff, h d]
  constructor
  · rintro ⟨hd, hmin⟩
    exact ⟨hd, fun e he => hmin e ((h e).mpr he)⟩
  · rintro ⟨hd, hmin⟩
    exact ⟨hd, fun e he => hmin e ((h e).mp he)⟩

/-! ## Properties of the specification -/

/-- C1: for every list `F` of domains and every query `q`,
`DomainChecker(F).IsForbidden(q)` is true if and only if `q` is a subdomain
(in the sense of `IsSubdomain`, so possibly equal) of some element of `F`. -/
theorem isForbidden_iff_exists_ancestor (F : List Domain) (q : Domain) :
    (DomainChecker.mk F).IsForbidden q = true ↔ ∃ f ∈ F, q.IsSubdomain f = true :=
  isForbidden_iff_input F q

/-- C2, as the claim states it, fails: with the one-element forbidden list
holding `Domain("")`, whose canonical form is the single dot when the read
of `back()` on the empty string yields `nul`, the query `Domain("ru")`
(canonical form "ur.") is not forbidden. -/
theorem root_does_not_forbid_ru :
    (DomainChecker.mk [Domain.mk nul "".toList]).IsForbidden
      (Domain.mk nul "ru".toList) = false := by
  decide

/-- A name that is empty or ends with a dot is a subdomain of the domain
built from the empty name, whatever the read of `back()` yields there. -/
theorem isSubdomain_root_of_dot_terminated (junk : Char) (s : List Char)
    (hs : s = [] ∨ ['.'] <:+ s) :
    (Domain.mk junk s).IsSubdomain (Domain.mk junk []) = true := by
  rcases hs with rfl | ⟨t, rfl⟩
  · exact Domain.isSubdomain_refl _
  · rw [Domain.isSubdomain_iff, mk_nil_value]
    have hne : t ++ ['.'] ≠ [] := by simp
    rw [mk_junk_irrel junk hne]
    by_cases hj : junk = '.'
    · simp [hj]
    · simp only [hj, if_false]
      cases t with
      | nil => simp [Domain.mk, back]
      | cons c cs =>
        simp only [Domain.mk, List.cons_append, back_reverse_cons]
        split_ifs <;> simp

/-- When the domain built from the empty name is the single dot, its
subdomains are exactly the names that are empty or end with a dot. -/
theorem isSubdomain_root_iff (junk : Char) (s : List Char) (hj : junk ≠ '.') :
    (Domain.mk junk s).IsSubdomain (Domain.mk junk []) = true ↔
      s = [] ∨ ['.'] <:+ s :=
  isSubdomain_mk_iff junk s [] (by simp) (fun _ => hj)

/-- C2, amended.  When `Domain("")` is in the forbidden input:
(1) every query `Domain(s)` whose raw string `s` is empty or ends with a dot
is forbidden, whatever the read of `back()` on the empty string yields;
(2) when that read yields a character other than the dot, so that
`Domain("")` is the single dot, `Domain(s)` is forbidden if and only if `s`
is empty or ends with a dot, or some listed domain other than `Domain("")`
is an ancestor-or-self of `Domain(s)`;
(3) in particular, with the one-element list holding `Domain("")`,
`Domain(s)` is then forbidden exactly when `s` is empty or ends with a
dot. -/
theorem root_forbids_dot_terminated (junk : Char) (input : List Domain)
    (s : List Char) (hroot : Domain.mk junk [] ∈ input) :
    ((s = [] ∨ ['.'] <:+ s) →
      (DomainChecker.mk input).IsForbidden (Domain.mk junk s) = true) ∧
    (junk ≠ '.' →
      ((DomainChecker.mk input).IsForbidden (Domain.mk junk s) = true ↔
        (s = [] ∨ ['.'] <:+ s) ∨
          ∃ f ∈ input, f ≠ Domain.mk junk [] ∧
            (Domain.mk junk s).IsSubdomain f = true)) ∧
    (junk ≠ '.' →
      ((DomainChecker.mk [Domain.mk junk []]).IsForbidden (Domain.mk junk s) = true ↔
        (s = [] ∨ ['.'] <:+ s))) := by
  refine ⟨?_, ?_, ?_⟩
  · intro hs
    rw [isForbidden_iff_input]
    exact ⟨Domain.mk junk [], hroot, isSubdomain_root_of_dot_terminated junk s hs⟩
  · intro hj
    rw [isForbidden_iff_input]
    constructor
    · rintro ⟨f, hf, hsf⟩
      by_cases hfr : f = Domain.mk junk []
      · subst hfr
        exact Or.inl ((isSubdomain_root_iff junk s hj).mp hsf)
      · exact Or.inr ⟨f, hf, hfr, hsf⟩
    · rintro (hs | ⟨f, hf, _, hsf⟩)
      · exact ⟨Domain.mk junk [], hroot, isSubdomain_root_of_dot_terminated junk s hs⟩
      · exact ⟨f, hf, hsf⟩
  · intro hj
    rw [isForbidden_iff_input, ← isSubdomain_root_iff junk s hj]
    constructor
    · rintro ⟨f, hf, hsf⟩
      rw [List.mem_singleton.mp hf] at hsf
      exact hsf
    · intro h
      exact ⟨Domain.mk junk [], List.mem_singleton.mpr rfl, h⟩

/-- C2, amended, at the list {"com", ""} and the queries "ru." (forbidden)
and "ru" (forbidden by neither the root nor "com"). -/
theorem root_forbids_dot_terminated_witness :
    (DomainChecker.mk [dom "com", Domain.mk nul []]).IsForbidden
      (Domain.mk nul "ru.".toList) = true ∧
    ((DomainChecker.mk [dom "com", Domain.mk nul []]).IsForbidden
        (Domain.mk nul "ru".toList) = true ↔
      ("ru".toList = [] ∨ ['.'] <:+ "ru".toList) ∨
        ∃ f ∈ [dom "com", Domain.mk nul []], f ≠ Domain.mk nul [] ∧
          (Domain.mk nul "ru".toList).IsSubdomain f = true) ∧
    ((DomainChecker.mk [Domain.mk nul []]).IsForbidden (Domain.mk nul "ru".toList) = true ↔
      ("ru".toList = [] ∨ ['.'] <:+ "ru".toList)) :=
  ⟨(root_forbids_dot_terminated nul [dom "com", Domain.mk nul []] "ru.".toList
      (by decide)).1 (Or.inr ⟨"ru".toList, by decide⟩),
    (root_forbids_dot_terminated nul [dom "com", Domain.mk nul []] "ru".toList
      (by decide)).2.1 (by decide),
    (root_forbids_dot_terminated nul [dom "com", Domain.mk nul []] "ru".toList
      (by decide)).2.2 (by decide)⟩

/-- C3: label boundaries are respected.  For raw strings `x` and `y`, `y` not
beginning with a dot, `Domain(x).IsSubdomain(Domain(y))` is true if and only
if `x = y` or `x` ends with a dot followed by `y` (for the empty `y`: when
the read of `back()` on the empty string yields a character other than the
dot).  In particular "rug" and "gdz.rru" are not subdomains of "ru", "ya.ru"
is not a subdomain of "rru", and "ya.ru" is a subdomain of "ru". -/
theorem isSubdomain_respects_labels (junk : Char) (x y : List Char)
    (hy : y.head? ≠ some '.') (hj : y = [] → junk ≠ '.') :
    ((Domain.mk junk x).IsSubdomain (Domain.mk junk y) = true ↔
      x = y ∨ ('.' :: y) <:+ x) ∧
    (Domain.mk junk "rug".toList).IsSubdomain (Domain.mk junk "ru".toList) = false ∧
    (Domain.mk junk "gdz.rru".toList).IsSubdomain (Domain.mk junk "ru".toList) = false ∧
    (Domain.mk junk "ya.ru".toList).IsSubdomain (Domain.mk junk "rru".toList) = false ∧
    (Domain.mk junk "ya.ru".toList).IsSubdomain (Domain.mk junk "ru".toList) = true := by
  refine ⟨isSubdomain_mk_iff junk x y hy hj, ?_, ?_, ?_, ?_⟩
  · rw [mk_junk_irrel junk (by decide : "rug".toList ≠ []),
      mk_junk_irrel junk (by decide : "ru".toList ≠ [])]
    decide
  · rw [mk_junk_irrel junk (by decide : "gdz.rru".toList ≠ []),
      mk_junk_irrel junk (by decide : "ru".toList ≠ [])]
    decide
  · rw [mk_junk_irrel junk (by decide : "ya.ru".toList ≠ []),
      mk_junk_irrel junk (by decide : "rru".toList ≠ [])]
    decide
  · rw [mk_junk_irrel junk (by decide : "ya.ru".toList ≠ []),
      mk_junk_irrel junk (by decide : "ru".toList ≠ [])]
    decide

/-- C3 at `x` = "a." and the empty `y`. -/
theorem isSubdomain_respects_labels_witness :
    ((Domain.mk nul "a.".toList).IsSubdomain (Domain.mk nul "".toList) = true ↔
      "a.".toList = "".toList ∨ ('.' :: "".toList) <:+ "a.".toList) ∧
    (Domain.mk nul "rug".toList).IsSubdomain (Domain.mk nul "ru".toList) = false ∧
    (Domain.mk nul "gdz.rru".toList).IsSubdomain (Domain.mk nul "ru".toList) = false ∧
    (Domain.mk nul "ya.ru".toList).IsSubdomain (Domain.mk nul "rru".toList) = false ∧
    (Domain.mk nul "ya.ru".toList).IsSubdomain (Domain.mk nul "ru".toList) = true :=
  isSubdomain_respects_labels nul "a.".toList "".toList (by decide) (fun _ => by decide)

/-- C4: for a raw string `x` and a non-empty raw string `y` that does not
begin with a dot, `Domain(x).IsSubdomain(Domain(y))` is true if and only if
the labels of `y` are a suffix of the labels of `x`; equivalently, read
top-level-first, the label sequence of `y` is a prefix of that of `x`. -/
theorem isSubdomain_iff_labels_suffix (junk : Char) (x y : List Char)
    (hy0 : y ≠ []) (hy : y.head? ≠ some '.') :
    ((Domain.mk junk x).IsSubdomain (Domain.mk junk y) = true ↔
      labels y <:+ labels x) ∧
    ((Domain.mk junk x).IsSubdomain (Domain.mk junk y) = true ↔
      (labels y).reverse <+: (labels x).reverse) := by
  have h := isSubdomain_mk_iff junk x y hy (fun h0 => absurd h0 hy0)
  refine ⟨h.trans (labels_suffix_iff x y).symm, ?_⟩
  rw [List.reverse_prefix]
  exact h.trans (labels_suffix_iff x y).symm

/-- C4 at `x` = "m.gdz.ru" and `y` = "gdz.ru". -/
theorem isSubdomain_iff_labels_suffix_witness :
    ((Domain.mk nul "m.gdz.ru".toList).IsSubdomain (Domain.mk nul "gdz.ru".toList) = true ↔
      labels "gdz.ru".toList <:+ labels "m.gdz.ru".toList) ∧
    ((Domain.mk nul "m.gdz.ru".toList).IsSubdomain (Domain.mk nul "gdz.ru".toList) = true ↔
      (labels "gdz.ru".toList).reverse <+: (labels "m.gdz.ru".toList).reverse) :=
  isSubdomain_iff_labels_suffix nul "m.gdz.ru".toList "gdz.ru".toList (by decide) (by decide)

/-- C5: normalization does not change query behaviour.  When every element of
`R` is equal to, or a subdomain of, some element of `S`, a checker built from
`S` and a checker built from any arrangement of the elements of `S` and `R`
together answer every query alike. -/
theorem isForbidden_redundant_added (S R L : List Domain)
    (hR : ∀ r ∈ R, ∃ s ∈ S, r = s ∨ r.IsSubdomain s = true)
    (hL : L.Perm (S ++ R)) (q : Domain) :
    (DomainChecker.mk L).IsForbidden q = (DomainChecker.mk S).IsForbidden q := by
  rw [Bool.eq_iff_iff, isForbidden_iff_input, isForbidden_iff_input]
  constructor
  · rintro ⟨f, hf, hqf⟩
    rcases List.mem_append.mp (hL.mem_iff.mp hf) with hfS | hfR
    · exact ⟨f, hfS, hqf⟩
    · obtain ⟨s, hs, hfs⟩ := hR f hfR
      rcases hfs with rfl | hfs
      · exact ⟨f, hs, hqf⟩
      · exact ⟨s, hs, Domain.isSubdomain_trans hqf hfs⟩
  · rintro ⟨f, hf, hqf⟩
    exact ⟨f, hL.mem_iff.mpr (List.mem_append_left R hf), hqf⟩

/-- C5 at `S` = {"gdz.ru", "com"} with "m.gdz.ru" and a second "com" added. -/
theorem isForbidden_redundant_added_witness :
    (DomainChecker.mk [dom "m.gdz.ru", dom "com", dom "gdz.ru", dom "com"]).IsForbidden
        (dom "alg.m.gdz.ru") =
      (DomainChecker.mk [dom "gdz.ru", dom "com"]).IsForbidden (dom "alg.m.gdz.ru") :=
  isForbidden_redundant_added [dom "gdz.ru", dom "com"] [dom "m.gdz.ru", dom "com"]
    [dom "m.gdz.ru", dom "com", dom "gdz.ru", dom "com"] (by decide) (by decide)
    (dom "alg.m.gdz.ru")

/-- C6: order and duplicates of the input are irrelevant to construction.
Two input lists holding the same set of domain values give checkers with
identical retained sequences `forbidden_`. -/
theorem forbidden_eq_of_same_values (l₁ l₂ : List Domain)
    (h₁₂ : ∀ d ∈ l₁, d ∈ l₂) (h₂₁ : ∀ d ∈ l₂, d ∈ l₁) :
    (DomainChecker.mk l₁).forbidden_ = (DomainChecker.mk l₂).forbidden_ :=
  retained_eq_of_same_members (fun d => ⟨h₁₂ d, h₂₁ d⟩)

/-- C6 at two arrangements of the values "zzz", "map.x" and "x". -/
theorem forbidden_eq_of_same_values_witness :
    (DomainChecker.mk [dom "zzz", dom "map.x", dom "x"]).forbidden_ =
      (DomainChecker.mk [dom "x", dom "x", dom "zzz", dom "map.x", dom "zzz"]).forbidden_ :=
  forbidden_eq_of_same_values [dom "zzz", dom "map.x", dom "x"]
    [dom "x", dom "x", dom "zzz", dom "map.x", dom "zzz"] (by decide) (by decide)

/-- C7: antichain invariant.  After construction no retained element is a
subdomain of another retained element: `forbidden_[i].IsSubdomain(forbidden_[j])`
is false for all positions `i ≠ j`. -/
theorem forbidden_antichain (input : List Domain) (i j : Nat)
    (hi : i < (DomainChecker.mk input).forbidden_.length)
    (hj : j < (DomainChecker.mk input).forbidden_.length) (hij : i ≠ j) :
    (DomainChecker.mk input).forbidden_[i].IsSubdomain
      (DomainChecker.mk input).forbidden_[j] = false := by
  refine retained_antichain input _ (List.getElem_mem hi) _ (List.getElem_mem hj) ?_
  intro h
  exact hij ((List.Nodup.getElem_inj_iff (retained_nodup input)).mp h)

/-- C7 at the input of `TestExample`, positions 2 and 0. -/
theorem forbidden_antichain_witness :
    ∃ (h2 : 2 < (DomainChecker.mk
          [dom "gdz.ru", dom "maps.me", dom "m.gdz.ru", dom "com"]).forbidden_.length)
      (h0 : 0 < (DomainChecker.mk
          [dom "gdz.ru", dom "maps.me", dom "m.gdz.ru", dom "com"]).forbidden_.length),
      (DomainChecker.mk
          [dom "gdz.ru", dom "maps.me", dom "m.gdz.ru", dom "com"]).forbidden_[2].IsSubdomain
        (DomainChecker.mk
          [dom "gdz.ru", dom "maps.me", dom "m.gdz.ru", dom "com"]).forbidden_[0] = false :=
  ⟨by decide, by decide,
    forbidden_antichain [dom "gdz.ru", dom "maps.me", dom "m.gdz.ru", dom "com"] 2 0
      (by decide) (by decide) (by decide)⟩

/-- C8: sortedness invariant.  After construction the retained sequence is
strictly ascending: `forbidden_[i] < forbidden_[i+1]` for every adjacent
pair. -/
theorem forbidden_strictly_sorted (input : List Domain) (i : Nat)
    (hi : i + 1 < (DomainChecker.mk input).forbidden_.length) :
    (DomainChecker.mk input).forbidden_[i].lt
      (DomainChecker.mk input).forbidden_[i + 1] = true :=
  List.pairwise_iff_getElem.mp (retained_strict input) i (i + 1) (by omega) hi (by omega)

/-- C8 at the input of `TestExample`, positions 1 and 2. -/
theorem forbidden_strictly_sorted_witness :
    ∃ (h : 1 + 1 < (DomainChecker.mk
          [dom "gdz.ru", dom "maps.me", dom "m.gdz.ru", dom "com"]).forbidden_.length),
      (DomainChecker.mk
          [dom "gdz.ru", dom "maps.me", dom "m.gdz.ru", dom "com"]).forbidden_[1].lt
        (DomainChecker.mk
          [dom "gdz.ru", dom "maps.me", dom "m.gdz.ru", dom "com"]).forbidden_[1 + 1] = true :=
  ⟨by decide,
    forbidden_strictly_sorted [dom "gdz.ru", dom "maps.me", dom "m.gdz.ru", dom "com"] 1
      (by decide)⟩

/-- C9, at the failing input: for the empty string the constructor applies
`value_.back()` to the empty reversed string, outside the precondition of
`back()`; for every other input the read is inside the string. -/
theorem mk_empty_reads_back_of_empty :
    Domain.mkDefined "".toList = false ∧
    "".toList.reverse = [] ∧
    ∀ s : List Char, Domain.mkDefined s = true ↔ s ≠ [] := by
  refine ⟨by decide, by decide, ?_⟩
  intro s
  cases s <;> simp [Domain.mkDefined, backDefined]

/-- C10: equality of domains ignores exactly one optional leading dot.
`Domain(x) == Domain(y)` holds if and only if `x` and `y` agree after
removing one leading dot from each, and `!=` holds exactly otherwise (when
`x` or `y` is empty: provided the read of `back()` on the empty string yields
a character other than the dot).  So ".ya.ru" equals "ya.ru", while "ya.ru"
differs from "yaru" and from "ru.ya", and "ru" differs from "". -/
theorem eq_iff_stripDot_eq (junk : Char) (x y : List Char)
    (hj : x = [] ∨ y = [] → junk ≠ '.') :
    ((Domain.mk junk x).eq (Domain.mk junk y) = true ↔ stripDot x = stripDot y) ∧
    ((Domain.mk junk x).ne (Domain.mk junk y) = true ↔ stripDot x ≠ stripDot y) ∧
    (Domain.mk junk ".ya.ru".toList).eq (Domain.mk junk "ya.ru".toList) = true ∧
    (Domain.mk junk "ya.ru".toList).ne (Domain.mk junk "yaru".toList) = true ∧
    (Domain.mk junk "ya.ru".toList).ne (Domain.mk junk "ru.ya".toList) = true ∧
    (Domain.mk junk "ru".toList).ne (Domain.mk junk "".toList) = true := by
  have hx := mk_value junk x (fun h => hj (Or.inl h))
  have hy := mk_value junk y (fun h => hj (Or.inr h))
  refine ⟨?_, ?_, ?_, ?_, ?_, ?_⟩
  · simp [Domain.eq, hx, hy]
  · simp [Domain.ne, hx, hy]
  · rw [mk_junk_irrel junk (by decide : ".ya.ru".toList ≠ []),
      mk_junk_irrel junk (by decide : "ya.ru".toList ≠ [])]
    decide
  · rw [mk_junk_irrel junk (by decide : "ya.ru".toList ≠ []),
      mk_junk_irrel junk (by decide : "yaru".toList ≠ [])]
    decide
  · rw [mk_junk_irrel junk (by decide : "ya.ru".toList ≠ []),
      mk_junk_irrel junk (by decide : "ru.ya".toList ≠ [])]
    decide
  · rw [mk_junk_irrel junk (by decide : "ru".toList ≠ [])]
    have h0 : (Domain.mk junk "".toList).value_ = if junk = '.' then [] else ['.'] :=
      mk_nil_value junk
    simp only [Domain.ne, h0]
    by_cases h : junk = '.'
    · rw [if_pos h]; decide
    · rw [if_neg h]; decide

/-- C10 at `x` = "." and the empty `y`. -/
theorem eq_iff_stripDot_eq_witness :
    ((Domain.mk nul ".".toList).eq (Domain.mk nul "".toList) = true ↔
      stripDot ".".toList = stripDot "".toList) ∧
    ((Domain.mk nul ".".toList).ne (Domain.mk nul "".toList) = true ↔
      stripDot ".".toList ≠ stripDot "".toList) ∧
    (Domain.mk nul ".ya.ru".toList).eq (Domain.mk nul "ya.ru".toList) = true ∧
    (Domain.mk nul "ya.ru".toList).ne (Domain.mk nul "yaru".toList) = true ∧
    (Domain.mk nul "ya.ru".toList).ne (Domain.mk nul "ru.ya".toList) = true ∧
    (Domain.mk nul "ru".toList).ne (Domain.mk nul "".toList) = true :=
  eq_iff_stripDot_eq nul ".".toList "".toList (fun _ => by decide)

/-! ## Further properties: the relation, the order, the search -/

theorem Domain.eq_iff (a b : Domain) : a.eq b = true ↔ a = b := by
  cases a; cases b; simp [Domain.eq]

theorem Domain.ne_iff (a b : Domain) : a.ne b = true ↔ a ≠ b := by
  cases a; cases b; simp [Domain.ne]

/-- C11: a checker built from an empty range forbids nothing: the upper
bound is the position `begin()` and `IsForbidden(q)` is false for every
query `q`. -/
theorem isForbidden_empty (q : Domain) :
    (DomainChecker.mk []).forbidden_ = [] ∧
    upperBound (DomainChecker.mk []).forbidden_ q = 0 ∧
    (DomainChecker.mk []).IsForbidden q = false :=
  ⟨rfl, rfl, rfl⟩

/-- C12: `IsSubdomain` is transitive. -/
theorem isSubdomain_transitive (A B C : Domain) (hab : A.IsSubdomain B = true)
    (hbc : B.IsSubdomain C = true) : A.IsSubdomain C = true :=
  Domain.isSubdomain_trans hab hbc

/-- C12 at "ya.google.ru", "google.ru" and "ru". -/
theorem isSubdomain_transitive_witness :
    (dom "ya.google.ru").IsSubdomain (dom "ru") = true :=
  isSubdomain_transitive (dom "ya.google.ru") (dom "google.ru") (dom "ru")
    (by decide) (by decide)

/-- C13: `IsSubdomain` is antisymmetric up to `==`: domains that are
subdomains of each other compare equal (`==` is true and `!=` is false), so
two domains that compare `!=` are never subdomains of each other in both
directions. -/
theorem isSubdomain_antisymmetric (D1 D2 : Domain)
    (h12 : D1.IsSubdomain D2 = true) (h21 : D2.IsSubdomain D1 = true) :
    D1.eq D2 = true ∧ D1.ne D2 = false := by
  have h := Domain.isSubdomain_antisymm h12 h21
  refine ⟨(Domain.eq_iff D1 D2).mpr h, ?_⟩
  cases hne : D1.ne D2 with
  | false => rfl
  | true => exact absurd h ((Domain.ne_iff D1 D2).mp hne)

/-- C13 at the domains built from "ya.ru" and ".ya.ru". -/
theorem isSubdomain_antisymmetric_witness :
    (dom "ya.ru").eq (dom ".ya.ru") = true ∧ (dom "ya.ru").ne (dom ".ya.ru") = false :=
  isSubdomain_antisymmetric (dom "ya.ru") (dom ".ya.ru") (by decide) (by decide)

/-- C14: `IsSubdomain` is reflexive: a constructed domain is a subdomain of
itself, and `D.IsSubdomain(E)` holds whenever `D == E`. -/
theorem isSubdomain_reflexive (junk : Char) (s : List Char) (D E : Domain)
    (h : D.eq E = true) :
    (Domain.mk junk s).IsSubdomain (Domain.mk junk s) = true ∧
    D.IsSubdomain D = true ∧ D.IsSubdomain E = true := by
  refine ⟨Domain.isSubdomain_refl _, Domain.isSubdomain_refl _, ?_⟩
  rw [(Domain.eq_iff D E).mp h]
  exact Domain.isSubdomain_refl _

/-- C14 at "ya.ru" and the equal domains built from "ya.ru" and ".ya.ru". -/
theorem isSubdomain_reflexive_witness :
    (Domain.mk nul "ya.ru".toList).IsSubdomain (Domain.mk nul "ya.ru".toList) = true ∧
    (dom "ya.ru").IsSubdomain (dom "ya.ru") = true ∧
    (dom "ya.ru").IsSubdomain (dom ".ya.ru") = true :=
  isSubdomain_reflexive nul "ya.ru".toList (dom "ya.ru") (dom ".ya.ru") (by decide)

/-- C19: the order is consistent with the subdomain relation: when
`A.IsSubdomain(B)` then `B <= A`, and if moreover `A != B` then `B < A`. -/
theorem le_of_isSubdomain_lt_of_ne (A B : Domain) (h : A.IsSubdomain B = true) :
    B.le A = true ∧ (A.ne B = true → B.lt A = true) := by
  refine ⟨Domain.le_of_isSubdomain h, ?_⟩
  intro hne
  exact Domain.lt_of_le_of_ne (Domain.le_of_isSubdomain h)
    (fun hba => (Domain.ne_iff A B).mp hne hba.symm)

/-- C19 at "m.gdz.ru" and "gdz.ru". -/
theorem le_of_isSubdomain_lt_of_ne_witness :
    (dom "gdz.ru").le (dom "m.gdz.ru") = true ∧
    ((dom "m.gdz.ru").ne (dom "gdz.ru") = true →
      (dom "gdz.ru").lt (dom "m.gdz.ru") = true) :=
  le_of_isSubdomain_lt_of_ne (dom "m.gdz.ru") (dom "gdz.ru") (by decide)

/-! ## The cost of a query -/

theorem upperBoundLoopCounted_fst (xs : List Domain) (val : Domain) :
    ∀ fuel first len,
      (upperBoundLoopCounted xs val fuel first len).1 = upperBoundLoop xs val fuel first len := by
  intro fuel
  induction fuel with
  | zero => intro first len; rfl
  | succ fuel ih =>
    intro first len
    simp only [upperBoundLoopCounted, upperBoundLoop]
    split_ifs with h0
    · rfl
    · cases hm : xs[first + len / 2]? with
      | none => rfl
      | some middle =>
        simp only
        split_ifs
        · exact ih _ _
        · exact ih _ _

/-- The halving loop evaluates `operator<` at most once per binary digit of
the length of its range. -/
theorem upperBoundLoopCounted_snd_le (xs : List Domain) (val : Domain) :
    ∀ fuel first len,
      (upperBoundLoopCounted xs val fuel first len).2 ≤
        if len = 0 then 0 else Nat.log 2 len + 1 := by
  intro fuel
  induction fuel with
  | zero => intro first len; simp [upperBoundLoopCounted]
  | succ fuel ih =>
    intro first len
    simp only [upperBoundLoopCounted]
    split_ifs with h0
    · exact Nat.le_refl _
    · have hstep : ∀ m, m ≤ len / 2 →
          (if m = 0 then 0 else Nat.log 2 m + 1) ≤ Nat.log 2 len := by
        intro m hm
        split_ifs with hm0
        · exact Nat.zero_le _
        · have h2 : 2 ≤ len := by omega
          have hlog : Nat.log 2 len = Nat.log 2 (len / 2) + 1 :=
            Nat.log_of_one_lt_of_le (by decide) h2
          rw [hlog]
          exact Nat.succ_le_succ (Nat.log_mono_right hm)
      cases hm : xs[first + len / 2]? with
      | none => exact Nat.zero_le _
      | some middle =>
        simp only
        split_ifs
        · exact Nat.succ_le_succ ((ih first (len / 2)).trans (hstep _ (Nat.le_refl _)))
        · exact Nat.succ_le_succ
            ((ih (first + len / 2 + 1) (len - len / 2 - 1)).trans (hstep _ (by omega)))

/-- C15: a query against `N` retained domains is one upper-bound binary
search, which evaluates `operator<` at most `log2 N + 1` times, followed by
at most one `IsSubdomain` check; the counted query returns what `IsForbidden`
returns. -/
theorem isForbidden_logarithmic (c : DomainChecker) (q : Domain) :
    (c.IsForbiddenCounted q).result = c.IsForbidden q ∧
    (c.IsForbiddenCounted q).comparisons ≤ Nat.log 2 c.forbidden_.length + 1 ∧
    (c.IsForbiddenCounted q).subdomainChecks ≤ 1 := by
  have h1 := upperBoundLoopCounted_fst c.forbidden_ q c.forbidden_.length 0 c.forbidden_.length
  have h2 := upperBoundLoopCounted_snd_le c.forbidden_ q c.forbidden_.length 0
    c.forbidden_.length
  have h3 : (upperBoundLoopCounted c.forbidden_ q c.forbidden_.length 0
      c.forbidden_.length).2 ≤ Nat.log 2 c.forbidden_.length + 1 := by
    refine h2.trans ?_
    split_ifs
    · exact Nat.zero_le _
    · exact Nat.le_refl _
  simp only [DomainChecker.IsForbiddenCounted, DomainChecker.IsForbidden, upperBound, h1]
  split_ifs with h0
  · exact ⟨rfl, h3, Nat.zero_le _⟩
  · cases hc : c.forbidden_[upperBoundLoop c.forbidden_ q c.forbidden_.length 0
        c.forbidden_.length - 1]? with
    | none => exact ⟨rfl, h3, Nat.zero_le _⟩
    | some candidate => exact ⟨rfl, h3, Nat.le_refl _⟩

/-! ## The search candidate -/

/-- In an ascending antichain an ancestor-or-self of the query sits right in
front of the upper bound of the query. -/
theorem candidate_of_ancestor {R : List Domain}
    (hs : R.Pairwise (fun a b => a.le b = true))
    (hp : R.Pairwise (fun a b =>
      a.lt b = true ∧ b.IsSubdomain a = false ∧ a.IsSubdomain b = false))
    {q f : Domain} (hf : f ∈ R) (hqf : q.IsSubdomain f = true) :
    0 < upperBound R q ∧ R[upperBound R q - 1]? = some f := by
  obtain ⟨hle, hub⟩ := upperBound_spec q hs
  obtain ⟨i, hi⟩ := List.mem_iff_getElem?.mp hf
  have hip := (hub i f hi).mpr
    ((Domain.le_iff_not_lt f q).mp (Domain.le_of_isSubdomain hqf))
  have hlt : upperBound R q - 1 < R.length := by omega
  have hc : R[upperBound R q - 1]? = some R[upperBound R q - 1] :=
    List.getElem?_eq_getElem hlt
  have hcq : R[upperBound R q - 1].le q = true :=
    (Domain.le_iff_not_lt _ _).mpr ((hub _ _ hc).mp (by omega))
  have hfc : f.le R[upperBound R q - 1] = true :=
    sorted_getElem? hs hi hc (by omega)
  have hsub := Domain.isSubdomain_of_between hqf hfc hcq
  refine ⟨by omega, ?_⟩
  rcases Nat.lt_or_eq_of_le (Nat.le_sub_one_of_lt hip) with hlt' | heq
  · obtain ⟨hi', rfl⟩ := List.getElem?_eq_some.mp hi
    have := (List.pairwise_iff_getElem.mp hp i _ hi' hlt hlt').2.1
    simp [hsub] at this
  · rw [← heq]; exact hi

/-- C16: in the retained sequence of a constructed checker, a retained
ancestor-or-self `f` of the query `q` is the element immediately in front of
the upper-bound position of `q`; it is the greatest retained element that is
`<= q`; and it is the only retained ancestor-or-self of `q`. -/
theorem ancestor_is_search_candidate (input : List Domain) (q f : Domain)
    (hf : f ∈ (DomainChecker.mk input).forbidden_) (hqf : q.IsSubdomain f = true) :
    (0 < upperBound (DomainChecker.mk input).forbidden_ q ∧
      (DomainChecker.mk input).forbidden_[
        upperBound (DomainChecker.mk input).forbidden_ q - 1]? = some f) ∧
    (f.le q = true ∧
      ∀ g ∈ (DomainChecker.mk input).forbidden_, g.le q = true → g.le f = true) ∧
    (∀ g ∈ (DomainChecker.mk input).forbidden_, q.IsSubdomain g = true → g = f) := by
  have hs := retained_sorted input
  have hp := retained_pairwise input
  have hcand := candidate_of_ancestor hs hp hf hqf
  refine ⟨hcand, ⟨Domain.le_of_isSubdomain hqf, ?_⟩, ?_⟩
  · intro g hg hgq
    obtain ⟨j, hj⟩ := List.mem_iff_getElem?.mp hg
    have hjp := ((upperBound_spec q hs).2 j g hj).mpr ((Domain.le_iff_not_lt g q).mp hgq)
    exact sorted_getElem? hs hj hcand.2 (by omega)
  · intro g hg hqg
    have hg' := (candidate_of_ancestor hs hp hg hqg).2
    rw [hcand.2] at hg'
    exact (Option.some.inj hg').symm

/-- C16 at the input of `TestExample`, the query "alg.m.gdz.ru" and its
retained ancestor "gdz.ru". -/
theorem ancestor_is_search_candidate_witness :
    (0 < upperBound (DomainChecker.mk
        [dom "gdz.ru", dom "maps.me", dom "m.gdz.ru", dom "com"]).forbidden_
        (dom "alg.m.gdz.ru") ∧
      (DomainChecker.mk [dom "gdz.ru", dom "maps.me", dom "m.gdz.ru", dom "com"]).forbidden_[
        upperBound (DomainChecker.mk
          [dom "gdz.ru", dom "maps.me", dom "m.gdz.ru", dom "com"]).forbidden_
          (dom "alg.m.gdz.ru") - 1]? = some (dom "gdz.ru")) ∧
    ((dom "gdz.ru").le (dom "alg.m.gdz.ru") = true ∧
      ∀ g ∈ (DomainChecker.mk
          [dom "gdz.ru", dom "maps.me", dom "m.gdz.ru", dom "com"]).forbidden_,
        g.le (dom "alg.m.gdz.ru") = true → g.le (dom "gdz.ru") = true) ∧
    (∀ g ∈ (DomainChecker.mk
        [dom "gdz.ru", dom "maps.me", dom "m.gdz.ru", dom "com"]).forbidden_,
      (dom "alg.m.gdz.ru").IsSubdomain g = true → g = dom "gdz.ru") :=
  ancestor_is_search_candidate [dom "gdz.ru", dom "maps.me", dom "m.gdz.ru", dom "com"]
    (dom "alg.m.gdz.ru") (dom "gdz.ru") (by decide) (by decide)

/-! ## One forward pass against the last retained domain -/

/-- On an ascending list, when the most recently retained domain `k` is the
greatest of those retained so far and none of the others is its ancestor,
comparing with `k` alone retains what comparing with all of them retains. -/
theorem uniqueFrom_eq_retainNotCovered (kept : List Domain) (k : Domain)
    (xs : List Domain) (hk : k ∈ kept) (hle : ∀ a ∈ kept, a.le k = true)
    (hmin : ∀ a ∈ kept, k.IsSubdomain a = true → a = k)
    (hs : (k :: xs).Pairwise (fun a b => a.le b = true)) :
    uniqueFrom (fun lhs rhs => rhs.IsSubdomain lhs) k xs = retainNotCovered kept xs := by
  induction xs generalizing kept k with
  | nil => rfl
  | cons x xs ih =>
    rw [List.pairwise_cons] at hs
    obtain ⟨hkx, hxs⟩ := hs
    have hkx' : k.le x = true := hkx x (List.mem_cons_self _ _)
    have hany : kept.any (fun a => x.IsSubdomain a) = x.IsSubdomain k := by
      rw [Bool.eq_iff_iff, List.any_eq_true]
      constructor
      · rintro ⟨a, ha, hxa⟩
        have hka := Domain.isSubdomain_of_between hxa (hle a ha) hkx'
        rw [hmin a ha hka] at hxa
        exact hxa
      · intro h
        exact ⟨k, hk, h⟩
    simp only [uniqueFrom, retainNotCovered, hany]
    split_ifs with h
    · refine ih kept k hk hle hmin (List.Pairwise.cons ?_ (List.pairwise_cons.mp hxs).2)
      intro y hy
      exact hkx y (List.mem_cons_of_mem _ hy)
    · congr 1
      refine ih (kept ++ [x]) x (by simp) ?_ ?_ hxs
      · intro a ha
        rcases List.mem_append.mp ha with ha | ha
        · exact Domain.le_trans (hle a ha) hkx'
        · rw [List.mem_singleton.mp ha]; exact Domain.le_refl _
      · intro a ha hxa
        rcases List.mem_append.mp ha with ha | ha
        · have : kept.any (fun a => x.IsSubdomain a) = true :=
            List.any_eq_true.mpr ⟨a, ha, hxa⟩
          rw [hany] at this
          exact absurd this h
        · exact List.mem_singleton.mp ha

theorem unique_eq_retainNotCovered {l : List Domain}
    (hs : l.Pairwise (fun a b => a.le b = true)) :
    unique (fun lhs rhs => rhs.IsSubdomain lhs) l = retainNotCovered [] l := by
  cases l with
  | nil => rfl
  | cons x xs =>
    simp only [unique, retainNotCovered, List.any_nil, Bool.false_eq_true, if_false,
      List.nil_append]
    congr 1
    refine uniqueFrom_eq_retainNotCovered [x] x xs (by simp) ?_ ?_ hs
    · intro a ha
      rw [List.mem_singleton.mp ha]; exact Domain.le_refl _
    · intro a ha _
      exact List.mem_singleton.mp ha

/-- C17: the single forward pass is as strong as comparing against everything
kept so far: for every input list, sorting and retaining a domain only if it
is not a subdomain of the most recently retained domain gives the same
sequence as sorting and retaining a domain only if it is not a subdomain of
any previously retained domain. -/
theorem forward_pass_eq_retainNotCovered (input : List Domain) :
    (DomainChecker.mk input).forbidden_ = retainNotCovered [] (sort input) ∧
    unique (fun lhs rhs => rhs.IsSubdomain lhs) (sort input) =
      retainNotCovered [] (sort input) :=
  ⟨unique_eq_retainNotCovered (sort_sorted input),
    unique_eq_retainNotCovered (sort_sorted input)⟩

/-! ## The retained sequence as the minimal input domains -/

/-- C18: the retained sequence is exactly the set of minimal input domains:
a domain occurs in `forbidden_` if and only if it occurs in the input and no
input domain different from it is its ancestor; it then occurs exactly once;
and nothing occurs that is not in the input. -/
theorem forbidden_is_minimal_input (input : List Domain) (d : Domain) :
    (d ∈ (DomainChecker.mk input).forbidden_ ↔
      d ∈ input ∧ ∀ e ∈ input, e.ne d = true → d.IsSubdomain e = false) ∧
    (d ∈ (DomainChecker.mk input).forbidden_ ↔
      (DomainChecker.mk input).forbidden_.count d = 1) ∧
    (d ∉ input → (DomainChecker.mk input).forbidden_.count d = 0) := by
  refine ⟨?_, ?_, ?_⟩
  · rw [retained_mem_iff]
    constructor
    · rintro ⟨hd, hmin⟩
      refine ⟨hd, fun e he hne => ?_⟩
      cases hde : d.IsSubdomain e with
      | false => rfl
      | true => exact absurd (hmin e he hde) ((Domain.ne_iff e d).mp hne)
    · rintro ⟨hd, hmin⟩
      refine ⟨hd, fun e he hde => ?_⟩
      by_contra hne
      have := hmin e he ((Domain.ne_iff e d).mpr hne)
      simp [hde] at this
  · constructor
    · intro hd
      exact List.count_eq_one_of_mem (retained_nodup input) hd
    · intro hc
      exact List.count_pos_iff.mp (by omega)
  · intro hd
    exact List.count_eq_zero_of_not_mem (fun h => hd (retained_mem_input h))

/-! ## `ReadDomains` -/

theorem takeLine_append_newline (l rest : List Char) (hl : '\n' ∉ l) :
    takeLine (l ++ '\n' :: rest) = (l, rest, false) := by
  induction l with
  | nil => simp [takeLine]
  | cons c cs ih =>
    have hc : c ≠ '\n' := fun h => hl (by simp [h])
    have hcs : '\n' ∉ cs := fun h => hl (List.mem_cons_of_mem _ h)
    simp [takeLine, hc, ih hcs]

theorem takeLine_last (l : List Char) (hl : '\n' ∉ l) : takeLine l = (l, [], true) := by
  induction l with
  | nil => rfl
  | cons c cs ih =>
    have hc : c ≠ '\n' := fun h => hl (by simp [h])
    have hcs : '\n' ∉ cs := fun h => hl (List.mem_cons_of_mem _ h)
    simp [takeLine, hc, ih hcs]

/-- Reading one line from a good stream that holds the lines `l :: ls`. -/
theorem getline_joinLines (l : List Char) (ls : List (List Char)) (hl : '\n' ∉ l)
    (line : List Char) :
    getline ⟨joinLines (l :: ls), true⟩ line = (⟨joinLines ls, !ls.isEmpty⟩, l) := by
  cases ls with
  | nil => simp [getline, joinLines, takeLine_last l hl]
  | cons l' ls => simp [getline, joinLines, takeLine_append_newline l _ hl]

theorem readDomainsLoop_joinLines (junk : Char) :
    ∀ (n : Nat) (lines : List (List Char)) (good : Bool) (result : List Domain),
      n ≤ lines.length → (∀ l ∈ lines, '\n' ∉ l) → (0 < n → good = true) →
      (ReadDomainsLoop junk n ⟨joinLines lines, good⟩ result).1.buf =
          joinLines (lines.drop n) ∧
        (ReadDomainsLoop junk n ⟨joinLines lines, good⟩ result).2 =
          result ++ (lines.take n).map (Domain.mk junk) := by
  intro n
  induction n with
  | zero => intro lines good result _ _ _; simp [ReadDomainsLoop]
  | succ n ih =>
    intro lines good result hn hnl hgood
    cases lines with
    | nil => simp at hn
    | cons l ls =>
      have hg : good = true := hgood (Nat.succ_pos n)
      subst hg
      have hl : '\n' ∉ l := hnl l (List.mem_cons_self _ _)
      simp only [ReadDomainsLoop, getline_joinLines l ls hl]
      have hn' : n ≤ ls.length := by simpa using hn
      have := ih ls (!ls.isEmpty) (result ++ [Domain.mk junk l]) hn'
        (fun l' hl' => hnl l' (List.mem_cons_of_mem _ hl'))
        (by
          intro hpos
          cases ls with
          | nil => simp at hn'; omega
          | cons _ _ => rfl)
      simpa using this

/-- C20: when the stream holds at least `n` newline-separated lines,
`ReadDomains(input, n)` returns exactly `n` domains, the i-th being
`Domain` of the i-th line, in input order, and leaves in the stream exactly
the lines after the n-th. -/
theorem readDomains_reads_first_lines (junk : Char) (lines : List (List Char))
    (n : Nat) (hn : n ≤ lines.length) (hnl : ∀ l ∈ lines, '\n' ∉ l) :
    (ReadDomains junk ⟨joinLines lines, true⟩ n).2 =
        (lines.take n).map (Domain.mk junk) ∧
    (ReadDomains junk ⟨joinLines lines, true⟩ n).2.length = n ∧
    (ReadDomains junk ⟨joinLines lines, true⟩ n).1.buf = joinLines (lines.drop n) := by
  have h := readDomainsLoop_joinLines junk n lines true [] hn hnl (fun _ => rfl)
  simp only [List.nil_append] at h
  refine ⟨h.2, ?_, h.1⟩
  show (ReadDomainsLoop junk n ⟨joinLines lines, true⟩ []).2.length = n
  rw [h.2]
  simp [hn]

/-- C20 at the stream of `TestReadDomains`: six of its eight lines are read. -/
theorem readDomains_reads_first_lines_witness :
    (ReadDomains nul ⟨joinLines ["google.com".toList, "ya.ru".toList, "market.biz".toList,
        "de".toList, "uk".toList, "math.gdz.ua".toList, "waste".toList,
        "taboo.forbidden".toList], true⟩ 6).2 =
      (List.take 6 ["google.com".toList, "ya.ru".toList, "market.biz".toList,
        "de".toList, "uk".toList, "math.gdz.ua".toList, "waste".toList,
        "taboo.forbidden".toList]).map (Domain.mk nul) ∧
    (ReadDomains nul ⟨joinLines ["google.com".toList, "ya.ru".toList, "market.biz".toList,
        "de".toList, "uk".toList, "math.gdz.ua".toList, "waste".toList,
        "taboo.forbidden".toList], true⟩ 6).2.length = 6 ∧
    (ReadDomains nul ⟨joinLines ["google.com".toList, "ya.ru".toList, "market.biz".toList,
        "de".toList, "uk".toList, "math.gdz.ua".toList, "waste".toList,
        "taboo.forbidden".toList], true⟩ 6).1.buf =
      joinLines (List.drop 6 ["google.com".toList, "ya.ru".toList, "market.biz".toList,
        "de".toList, "uk".toList, "math.gdz.ua".toList, "waste".toList,
        "taboo.forbidden".toList]) :=
  readDomains_reads_first_lines nul ["google.com".toList, "ya.ru".toList,
    "market.biz".toList, "de".toList, "uk".toList, "math.gdz.ua".toList, "waste".toList,
    "taboo.forbidden".toList] 6 (by decide) (by decide)

end ForbiddenDomains
